import Mathlib

/-!
Verification of `parse_dbnotebook.py`, a converter between the Databricks
notebook text format (`# COMMAND ----------` separators, `# MAGIC` line
markers) and the Jupyter percent text format (`# %%` / `# %% [markdown]`
cell markers).

Strings are embedded as `List Char`.  Each Python string operation used by
the source (`split`, `join`, `strip`, `startswith`, `endswith`, `replace`,
`in`, and the one regex substitution) is given an executable structural
definition, and each function of the source file is translated on top of
them.
-/

/-- Coerce a Lean string literal to the `List Char` representation. -/
def S (s : String) : List Char := s.data

/-- Python `str.strip()` whitespace test (ASCII whitespace characters). -/
def pyIsSpace (c : Char) : Bool :=
  c == ' ' || c == '\t' || c == '\n' || c == '\r' || c == '\x0b' || c == '\x0c'

/-- Python `s.strip()`: drop leading and trailing whitespace. -/
def pyStrip (s : List Char) : List Char :=
  ((s.dropWhile pyIsSpace).reverse.dropWhile pyIsSpace).reverse

/-- Python `s.startswith(pat)`. -/
def pyStartsWith (pat s : List Char) : Bool :=
  pat.isPrefixOf s

/-- Python `s.endswith(pat)`. -/
def pyEndsWith (pat s : List Char) : Bool :=
  pat.isSuffixOf s

/-- Python `pat in s`: substring test, by scanning every position. -/
def containsSub (pat : List Char) : List Char → Bool
  | [] => pat.isPrefixOf []
  | c :: cs => pat.isPrefixOf (c :: cs) || containsSub pat cs

/-- Scanner for Python `s.replace(old, new)` (`old` nonempty).  The first
argument counts characters still to be skipped because they belong to an
occurrence that was already replaced; Python's `replace` resumes scanning
after the replaced occurrence. -/
def replGo (old new : List Char) : Nat → List Char → List Char
  | 0, [] => []
  | 0, c :: cs =>
    if old.isPrefixOf (c :: cs) then new ++ replGo old new (old.length - 1) cs
    else c :: replGo old new 0 cs
  | _ + 1, [] => []
  | n + 1, _ :: cs => replGo old new n cs

/-- Python `s.replace(old, new)`: every occurrence of `old`, scanned left to
right without overlap, is replaced by `new`.  (The source never calls
`replace` with an empty `old`.) -/
def replaceAll (old new s : List Char) : List Char :=
  match old with
  | [] => s
  | _ :: _ => replGo old new 0 s

/-- Python `s.split("\n")`. -/
def splitOnNl : List Char → List (List Char)
  | [] => [[]]
  | c :: cs =>
    if c = '\n' then [] :: splitOnNl cs
    else
      match splitOnNl cs with
      | [] => [[c]]
      | b :: bs => (c :: b) :: bs

/-- Python `"\n".join(ls)`. -/
def joinNl : List (List Char) → List Char
  | [] => []
  | [l] => l
  | l :: ls => l ++ '\n' :: joinNl ls

/-- Python `s.split("\n", n)` (split at most `n` times). -/
def splitNlMax : Nat → List Char → List (List Char)
  | _, [] => [[]]
  | 0, s => [s]
  | n + 1, c :: cs =>
    if c = '\n' then [] :: splitNlMax n cs
    else
      match splitNlMax (n + 1) cs with
      | [] => [[c]]
      | b :: bs => (c :: b) :: bs

/-- One scanning pass of `re.sub(r"(%[a-zA-Z]+.*?)(\n|$)", g1 + "\n\n", text,
flags=re.DOTALL)`.  A match starts at a `%` immediately followed by an ASCII
letter and extends up to (and including) the next newline, or to the end of
the text; the replacement re-emits the matched text with the newline doubled.
The `Bool` state records being inside a match (consuming up to the next
newline). -/
def addLBGo : Bool → List Char → List Char
  | true, [] => ['\n', '\n']
  | true, c :: cs =>
    if c = '\n' then '\n' :: '\n' :: addLBGo false cs
    else c :: addLBGo true cs
  | false, [] => []
  | false, [c] => [c]
  | false, c :: d :: ds =>
    if c = '%' then
      if d.isAlpha then '%' :: d :: addLBGo true ds
      else '%' :: addLBGo false (d :: ds)
    else c :: addLBGo false (d :: ds)

/-- `add_linebreak_after_percent_words` from the source. -/
def add_linebreak_after_percent_words (s : List Char) : List Char :=
  addLBGo false s

/-- Does the text contain a `%`-word match of the regex above?  Mirrors the
scanning order of `addLBGo`. -/
def hasPW : List Char → Bool
  | [] => false
  | [_] => false
  | c :: d :: ds =>
    if c = '%' then
      if d.isAlpha then true else hasPW (d :: ds)
    else hasPW (d :: ds)

/-- The Databricks cell separator line. -/
def sepLine : List Char := S "# COMMAND ----------"

/-- The per-block preprocessing of the first block in `parse_dbnotebook`:
`"\n" + "\n".join(blck.split("\n", 3)[1:])` (drop the block's first line and
put an empty line in front). -/
def firstBlockAdjust (b : List Char) : List Char :=
  '\n' :: joinNl ((splitNlMax 3 b).drop 1)

/-- The loop body of `parse_dbnotebook` for one (already preprocessed)
block: blocks containing `# MAGIC` are emitted as markdown cells (drop the
`# MAGIC %md` marker line, rewrite `# MAGIC ` to `# `, pad after
`%`-words), all other blocks as plain `# %%` code cells. -/
def dbChunkCore (blck : List Char) : List Char :=
  if containsSub (S "# MAGIC") blck then
    add_linebreak_after_percent_words
      (replaceAll (S "# MAGIC ") (S "# ")
        (replaceAll (S "# MAGIC %md\n") []
          (S "# %% [markdown]" ++ blck ++ ['\n'])))
  else S "# %%" ++ blck ++ ['\n']

/-- `parse_dbnotebook` from the source: concatenate the converted blocks,
with the first block's first line stripped beforehand. -/
def parse_dbnotebook : List (List Char) → List Char
  | [] => []
  | b :: rest => dbChunkCore (firstBlockAdjust b) ++ (rest.map dbChunkCore).flatten

/-- The two nested `while` loops of `process_magic_commands`, as a scan over
the lines with a flag for being inside the inner loop (inside a markdown
cell).  In the inner loop, a line starting with `# COMMAND ----------` is
handed back to the outer loop unconsumed; the outer-loop dispatch on that
line is inlined in the first branch. -/
def pmcGo : Bool → List (List Char) → List (List Char)
  | _, [] => []
  | true, l :: ls =>
    if pyStartsWith sepLine l then
      if pyStrip l = S "# MAGIC %md" then l :: pmcGo true ls
      else l :: pmcGo false ls
    else
      (if pyStartsWith ['#'] l then S "# MAGIC" ++ l.drop 1 else l) :: pmcGo true ls
  | false, l :: ls =>
    if pyStrip l = S "# MAGIC %md" then l :: pmcGo true ls
    else l :: pmcGo false ls

/-- `process_magic_commands` from the source. -/
def process_magic_commands (s : List Char) : List Char :=
  joinNl (pmcGo false (splitOnNl s))

/-- The accumulator loop of `split_script`: `cur` is the current block's
lines; a separator line flushes a nonempty current block. -/
def splitScriptGo : List (List Char) → List (List Char) → List (List Char)
  | cur, [] => if cur = [] then [] else [joinNl cur]
  | cur, l :: ls =>
    if pyStrip l = sepLine then
      if cur = [] then splitScriptGo [] ls
      else joinNl cur :: splitScriptGo [] ls
    else splitScriptGo (cur ++ [l]) ls

/-- `split_script` from the source. -/
def split_script (s : List Char) : List (List Char) :=
  splitScriptGo [] (splitOnNl s)

/-- The blank-line trimming step of `parse_jupyter_notebook` (line 182 of
the source): one `replace` pass turning `\n\n\n` into `\n\n`. -/
def trimTripleNewlines (s : List Char) : List Char :=
  replaceAll (S "\n\n\n") (S "\n\n") s

/-- `parse_jupyter_notebook` from the source. -/
def parse_jupyter_notebook (s : List Char) : List Char :=
  replaceAll (S "# Databricks notebook source\n# COMMAND ----------\n\n")
    (S "# Databricks notebook source\n")
    (trimTripleNewlines
      (process_magic_commands
        (replaceAll (S "#\n") []
          (replaceAll (S "# %%\n") (S "# COMMAND ----------\n\n")
            (replaceAll (S "# %% [markdown]\n")
              (S "# COMMAND ----------\n\n# MAGIC %md\n")
              (S "# Databricks notebook source\n" ++ s))))))

/-- Outcome of one invocation of `main`, abstracting the file system: either
a percent-format text is handed to the notebook library and written to a
path, or a converted Databricks text is written to a path, or the run dies
with the format assertion or the extension `ValueError`. -/
inductive MainOutcome
  | wroteIpynb (path : List Char) (percentText : List Char)
  | wrotePy (path : List Char) (content : List Char)
  | assertionError
  | valueError

/-- The dispatch logic of `main` after the input file was read.  `file` is
the input path, `output` the optional `--output` path, `content` the raw
input file content, and `nbStr` stands for
`jupytext.writes(jupytext.read(file), fmt="py:percent")` in the `.ipynb`
branch — the output of the external notebook library, which is not part of
this repository and is left abstract. -/
def mainDispatch (file : List Char) (output : Option (List Char))
    (content : List Char) (nbStr : List Char) : MainOutcome :=
  if pyEndsWith (S ".py") file then
    if containsSub (S "# Databricks notebook source") content then
      MainOutcome.wroteIpynb
        (match output with
         | some o => o
         | none => replaceAll (S ".py") (S ".ipynb") file)
        (parse_dbnotebook (split_script content))
    else MainOutcome.assertionError
  else if pyEndsWith (S ".ipynb") file then
    MainOutcome.wrotePy
      (match output with
       | some o => o
       | none => replaceAll (S ".ipynb") (S ".py") file)
      (parse_jupyter_notebook nbStr)
  else MainOutcome.valueError

/-- The output path of an outcome that writes a file. -/
def outcomePath : MainOutcome → Option (List Char)
  | MainOutcome.wroteIpynb p _ => some p
  | MainOutcome.wrotePy p _ => some p
  | _ => none

/-! ## Lines: lemmas about `splitOnNl`, `joinNl`, `splitNlMax` -/

/-- A piece of text with no newline character (one line). -/
def nlFree (s : List Char) : Prop := ∀ c ∈ s, c ≠ '\n'

instance (s : List Char) : Decidable (nlFree s) := by
  unfold nlFree; infer_instance

theorem joinNl_cons (l : List Char) (ls : List (List Char)) (h : ls ≠ []) :
    joinNl (l :: ls) = l ++ '\n' :: joinNl ls := by
  cases ls with
  | nil => exact absurd rfl h
  | cons a as => rfl

theorem splitOnNl_nl (cs : List Char) : splitOnNl ('\n' :: cs) = [] :: splitOnNl cs := by
  simp [splitOnNl]

theorem splitOnNl_cons_ne (c : Char) (cs : List Char) (h : c ≠ '\n') :
    splitOnNl (c :: cs)
      = match splitOnNl cs with
        | [] => [[c]]
        | b :: bs => (c :: b) :: bs := by
  simp [splitOnNl, h]

theorem splitOnNl_ne_nil : ∀ s : List Char, splitOnNl s ≠ [] := by
  intro s
  cases s with
  | nil => simp [splitOnNl]
  | cons c cs =>
    by_cases h : c = '\n'
    · subst h; rw [splitOnNl_nl]; simp
    · rw [splitOnNl_cons_ne c cs h]
      cases hs : splitOnNl cs <;> simp

theorem joinNl_splitOnNl : ∀ s : List Char, joinNl (splitOnNl s) = s := by
  intro s
  induction s with
  | nil => rfl
  | cons c cs ih =>
    by_cases h : c = '\n'
    · subst h
      rw [splitOnNl_nl, joinNl_cons _ _ (splitOnNl_ne_nil cs), ih]
      rfl
    · rw [splitOnNl_cons_ne c cs h]
      cases hs : splitOnNl cs with
      | nil => exact absurd hs (splitOnNl_ne_nil cs)
      | cons b bs =>
        rw [hs] at ih
        cases bs with
        | nil => simpa [joinNl] using ih
        | cons b' bs' =>
          rw [joinNl_cons _ _ (by simp)] at ih ⊢
          simpa [joinNl] using ih

theorem nlFree_of_mem_splitOnNl : ∀ s l, l ∈ splitOnNl s → nlFree l := by
  intro s
  induction s with
  | nil => intro l hl; simp [splitOnNl] at hl; subst hl; intro c hc; simp at hc
  | cons c cs ih =>
    intro l hl
    by_cases h : c = '\n'
    · rw [h, splitOnNl_nl] at hl
      rcases List.mem_cons.mp hl with rfl | hl'
      · intro x hx; simp at hx
      · exact ih l hl'
    · rw [splitOnNl_cons_ne c cs h] at hl
      cases hs : splitOnNl cs with
      | nil => exact absurd hs (splitOnNl_ne_nil cs)
      | cons b bs =>
        rw [hs] at hl
        rcases List.mem_cons.mp hl with rfl | hl'
        · intro x hx
          rcases List.mem_cons.mp hx with rfl | hx'
          · exact h
          · exact ih b (hs ▸ List.mem_cons_self b bs) x hx'
        · exact ih l (hs ▸ List.mem_cons_of_mem b hl')

theorem splitOnNl_nlFree (a : List Char) (h : nlFree a) : splitOnNl a = [a] := by
  induction a with
  | nil => rfl
  | cons c cs ih =>
    have hc : c ≠ '\n' := h c (List.mem_cons_self c cs)
    rw [splitOnNl_cons_ne c cs hc, ih (fun x hx => h x (List.mem_cons_of_mem c hx))]

theorem splitOnNl_append (a b : List Char) (h : nlFree a) :
    splitOnNl (a ++ '\n' :: b) = a :: splitOnNl b := by
  induction a with
  | nil => simp [splitOnNl_nl]
  | cons c cs ih =>
    have hc : c ≠ '\n' := h c (List.mem_cons_self c cs)
    rw [List.cons_append, splitOnNl_cons_ne c _ hc,
      ih (fun x hx => h x (List.mem_cons_of_mem c hx))]

theorem splitOnNl_joinNl : ∀ ls : List (List Char), ls ≠ [] →
    (∀ l ∈ ls, nlFree l) → splitOnNl (joinNl ls) = ls := by
  intro ls
  induction ls with
  | nil => intro h; exact absurd rfl h
  | cons l ls ih =>
    intro _ hfree
    cases ls with
    | nil => exact splitOnNl_nlFree l (hfree l (by simp))
    | cons m ms =>
      rw [joinNl_cons _ _ (by simp),
        splitOnNl_append _ _ (hfree l (by simp)),
        ih (by simp) (fun x hx => hfree x (List.mem_cons_of_mem l hx))]

theorem splitNlMax_nl (n : Nat) (cs : List Char) :
    splitNlMax (n + 1) ('\n' :: cs) = [] :: splitNlMax n cs := by
  simp [splitNlMax]

theorem splitNlMax_cons_ne (n : Nat) (c : Char) (cs : List Char) (h : c ≠ '\n') :
    splitNlMax (n + 1) (c :: cs)
      = match splitNlMax (n + 1) cs with
        | [] => [[c]]
        | b :: bs => (c :: b) :: bs := by
  simp [splitNlMax, h]

theorem splitNlMax_ne_nil : ∀ (n : Nat) (s : List Char), splitNlMax n s ≠ [] := by
  intro n s
  cases s with
  | nil => cases n <;> simp [splitNlMax]
  | cons c cs =>
    cases n with
    | zero => simp [splitNlMax]
    | succ n =>
      by_cases h : c = '\n'
      · subst h; rw [splitNlMax_nl]; simp
      · rw [splitNlMax_cons_ne n c cs h]
        cases hs : splitNlMax (n + 1) cs <;> simp

theorem joinNl_splitNlMax : ∀ (s : List Char) (n : Nat), joinNl (splitNlMax n s) = s := by
  intro s
  induction s with
  | nil => intro n; cases n <;> rfl
  | cons c cs ih =>
    intro n
    cases n with
    | zero => rfl
    | succ n =>
      by_cases h : c = '\n'
      · subst h
        rw [splitNlMax_nl, joinNl_cons _ _ (splitNlMax_ne_nil n cs), ih n]
        rfl
      · rw [splitNlMax_cons_ne n c cs h]
        cases hs : splitNlMax (n + 1) cs with
        | nil => exact absurd hs (splitNlMax_ne_nil (n + 1) cs)
        | cons b bs =>
          have ih' := ih (n + 1)
          rw [hs] at ih'
          cases bs with
          | nil => simpa [joinNl] using ih'
          | cons b' bs' =>
            rw [joinNl_cons _ _ (by simp)] at ih' ⊢
            simpa [joinNl] using ih'

/-! ## The first-block adjustment -/

/-- The spec's description of the first-block preprocessing: the block's
first line is removed (everything after the first newline; empty for a
single-line block). -/
def firstLineStripped (b : List Char) : List Char :=
  (b.dropWhile (fun c => !(c == '\n'))).drop 1

theorem firstBlockAdjust_eq (b : List Char) :
    firstBlockAdjust b = '\n' :: firstLineStripped b := by
  unfold firstBlockAdjust firstLineStripped
  congr 1
  induction b with
  | nil => rfl
  | cons c cs ih =>
    by_cases h : c = '\n'
    · subst h
      rw [splitNlMax_nl]
      simp [joinNl_splitNlMax, List.dropWhile]
    · rw [splitNlMax_cons_ne 2 c cs h]
      cases hs : splitNlMax 3 cs with
      | nil => exact absurd hs (splitNlMax_ne_nil 3 cs)
      | cons b bs =>
        rw [hs] at ih
        have hc : (!(c == '\n')) = true := by simp [h]
        simp only [List.dropWhile_cons, hc, if_true]
        simpa using ih

/-! ## Substring containment and infixes -/

theorem containsSub_infix_iff (pat s : List Char) : containsSub pat s = true ↔ pat <:+: s := by
  induction s with
  | nil =>
    simp [containsSub, List.isPrefixOf_iff_prefix]
  | cons c cs ih =>
    simp [containsSub, List.isPrefixOf_iff_prefix, List.infix_cons_iff, ih]

theorem containsSub_eq_false_iff (pat s : List Char) :
    containsSub pat s = false ↔ ¬ pat <:+: s := by
  rw [← containsSub_infix_iff]
  cases containsSub pat s <;> simp

theorem containsSub_false_mono {pat s s' : List Char} (h : containsSub pat s = false)
    (hinf : s' <:+: s) : containsSub pat s' = false := by
  rw [containsSub_eq_false_iff] at h ⊢
  exact fun hc => h (hc.trans hinf)

/-! ## Lemmas about `replaceAll` -/

theorem isPrefixOf_false_of_take (old p s : List Char)
    (h : (old.take p.length).isPrefixOf p = false) : old.isPrefixOf (p ++ s) = false := by
  induction old generalizing p with
  | nil => simp at h
  | cons o os ih =>
    cases p with
    | nil => simp at h
    | cons q qs =>
      simp only [List.take, List.isPrefixOf, List.cons_append] at h ⊢
      rcases Bool.and_eq_false_iff.mp h with h' | h'
      · simp [h']
      · simp [ih qs h']

theorem isPrefixOf_append_of_le (old p s : List Char) (h : old.length ≤ p.length) :
    old.isPrefixOf (p ++ s) = old.isPrefixOf p := by
  induction old generalizing p with
  | nil => simp [List.isPrefixOf]
  | cons o os ih =>
    cases p with
    | nil => simp at h
    | cons q qs =>
      simp only [List.cons_append, List.isPrefixOf]
      rw [List.append_eq, ih qs (by simpa using h)]

theorem isPrefixOf_append_of_isPrefixOf (old p s : List Char)
    (h : old.isPrefixOf p = true) : old.isPrefixOf (p ++ s) = true := by
  rw [ List.isPrefixOf_iff_prefix] at h ⊢
  exact h.trans (List.prefix_append p s)

theorem replGo_drop (old new : List Char) : ∀ (n : Nat) (s : List Char),
    replGo old new n s = replGo old new 0 (s.drop n) := by
  intro n
  induction n with
  | zero => intro s; rfl
  | succ n ih =>
    intro s
    cases s with
    | nil => cases n <;> rfl
    | cons c cs => rw [List.drop_succ_cons, ← ih cs]; rfl

theorem containsSub_nil_left (s : List Char) : containsSub [] s = true := by
  cases s <;> simp [containsSub, List.isPrefixOf]

theorem replaceAll_of_not_contains (old new s : List Char)
    (h : containsSub old s = false) : replaceAll old new s = s := by
  cases old with
  | nil => rw [containsSub_nil_left] at h; cases h
  | cons o os =>
    induction s with
    | nil => rfl
    | cons c cs ih =>
      simp only [containsSub, Bool.or_eq_false_iff] at h
      show replGo (o :: os) new 0 (c :: cs) = c :: cs
      rw [replGo, if_neg (by simp [h.1])]
      exact congrArg (c :: ·) (ih h.2)

theorem replaceAll_cons_of_not_pref (old new : List Char) (c : Char) (s : List Char)
    (h : old.isPrefixOf (c :: s) = false) :
    replaceAll old new (c :: s) = c :: replaceAll old new s := by
  cases old with
  | nil => simp [List.isPrefixOf] at h
  | cons o os =>
    show replGo (o :: os) new 0 (c :: s) = c :: replGo (o :: os) new 0 s
    rw [replGo, if_neg (by simp [h])]

theorem replaceAll_head_occurrence (old new t : List Char) (o : Char) (os : List Char)
    (hold : old = o :: os) (h : containsSub old t = false) :
    replaceAll old new (old ++ t) = new ++ t := by
  subst hold
  show replGo (o :: os) new 0 (o :: (os ++ t)) = new ++ t
  rw [replGo, if_pos (by
    rw [ List.isPrefixOf_iff_prefix]
    exact List.prefix_append (o :: os) t)]
  rw [replGo_drop]
  simp only [List.length_cons, Nat.add_sub_cancel, List.drop_append_of_le_length (Nat.le_refl _),
    List.drop_length, List.nil_append]
  have := replaceAll_of_not_contains (o :: os) new t h
  simpa [replaceAll] using this

theorem replaceAll_append_scan (old new : List Char) (o : Char) (os : List Char)
    (_hold : old = o :: os) :
    ∀ p s : List Char, (∀ i, i < p.length → old.isPrefixOf ((p ++ s).drop i) = false) →
      replaceAll old new (p ++ s) = p ++ replaceAll old new s := by
  intro p
  induction p with
  | nil => intro s _; rfl
  | cons c p' ih =>
    intro s H
    have h0 := H 0 (by simp)
    simp only [List.drop_zero, List.cons_append] at h0
    rw [List.cons_append, replaceAll_cons_of_not_pref old new c (p' ++ s) h0,
      ih s (fun i hi => by simpa using H (i + 1) (by simpa using hi))]
    rfl

theorem replaceAll_concrete_scan (old new : List Char) (o : Char) (os : List Char)
    (hold : old = o :: os) (p s : List Char)
    (H : ∀ i, i < p.length → (old.take (p.length - i)).isPrefixOf (p.drop i) = false) :
    replaceAll old new (p ++ s) = p ++ replaceAll old new s := by
  refine replaceAll_append_scan old new o os hold p s (fun i hi => ?_)
  rw [List.drop_append_of_le_length (Nat.le_of_lt hi)]
  refine isPrefixOf_false_of_take old (p.drop i) s ?_
  rw [List.length_drop]
  exact H i hi

theorem replaceAll_nl_cons (old new b : List Char) (o : Char) (os : List Char)
    (hold : old = o :: os) (hfree : nlFree old) :
    replaceAll old new ('\n' :: b) = '\n' :: replaceAll old new b := by
  refine replaceAll_cons_of_not_pref old new '\n' b ?_
  have ho : o ≠ '\n' := hfree o (by simp [hold])
  subst hold
  simp [List.isPrefixOf, ho]

theorem replaceAll_nl_append_aux (old new : List Char) (o : Char) (os : List Char)
    (hold : old = o :: os) (hfree : nlFree old) :
    ∀ (n : Nat) (a b : List Char), a.length ≤ n →
      replaceAll old new (a ++ '\n' :: b)
        = replaceAll old new a ++ '\n' :: replaceAll old new b := by
  intro n
  induction n with
  | zero =>
    intro a b ha
    have hnil : a = [] := List.length_eq_zero.mp (Nat.le_zero.mp ha)
    subst hnil
    rw [List.nil_append, replaceAll_nl_cons old new b o os hold hfree]
    subst hold
    rfl
  | succ n ih =>
    intro a b ha
    cases a with
    | nil =>
      rw [List.nil_append, replaceAll_nl_cons old new b o os hold hfree]
      subst hold
      rfl
    | cons c a' =>
      have ha' : a'.length ≤ n := by simpa using ha
      by_cases hm : old.isPrefixOf (c :: (a' ++ '\n' :: b)) = true
      · -- a match starts here; since `old` is newline-free it ends inside `c :: a'`
        have hlen : os.length ≤ a'.length := by
          by_contra hgt
          push_neg at hgt
          rw [ List.isPrefixOf_iff_prefix] at hm
          obtain ⟨r, hr⟩ := hm
          rw [hold, List.cons_append] at hr
          obtain ⟨-, htail⟩ := List.cons.inj hr
          have h2 : (os ++ r).take (a'.length + 1) = os.take (a'.length + 1) :=
            List.take_append_of_le_length (by omega)
          rw [htail, List.take_append 1,
            show List.take 1 ('\n' :: b) = ['\n'] from rfl] at h2
          have h3 : '\n' ∈ os := by
            refine List.take_subset (a'.length + 1) os ?_
            rw [← h2]
            simp
          exact hfree '\n' (by rw [hold]; exact List.mem_cons_of_mem o h3) rfl
        have hm' : old.isPrefixOf (c :: a') = true := by
          rw [← isPrefixOf_append_of_le old (c :: a') ('\n' :: b)
            (by subst hold; simp only [List.length_cons]; omega)]
          simpa using hm
        subst hold
        show replGo (o :: os) new 0 (c :: (a' ++ '\n' :: b))
          = replGo (o :: os) new 0 (c :: a') ++ '\n' :: replGo (o :: os) new 0 b
        rw [replGo, if_pos hm, replGo, if_pos hm']
        rw [replGo_drop, replGo_drop (o :: os) new ((o :: os).length - 1) a']
        simp only [List.length_cons, Nat.add_sub_cancel]
        rw [List.drop_append_of_le_length hlen]
        have hd : (a'.drop os.length).length ≤ n :=
          Nat.le_trans (by simp) ha'
        have := ih (a'.drop os.length) b hd
        simp only [replaceAll] at this
        rw [this, List.append_assoc]
      · simp only [Bool.not_eq_true] at hm
        have hm2 : old.isPrefixOf (c :: a') = false := by
          cases hp : old.isPrefixOf (c :: a') with
          | false => rfl
          | true =>
            have := isPrefixOf_append_of_isPrefixOf old (c :: a') ('\n' :: b) hp
            rw [List.cons_append] at this
            simp [this] at hm
        rw [List.cons_append,
          replaceAll_cons_of_not_pref old new c (a' ++ '\n' :: b) (by simpa using hm),
          replaceAll_cons_of_not_pref old new c a' hm2,
          ih a' b ha']
        rfl

theorem replaceAll_nl_append (old new a b : List Char) (o : Char) (os : List Char)
    (hold : old = o :: os) (hfree : nlFree old) :
    replaceAll old new (a ++ '\n' :: b)
      = replaceAll old new a ++ '\n' :: replaceAll old new b :=
  replaceAll_nl_append_aux old new o os hold hfree a.length a b (Nat.le_refl _)

theorem replaceAll_joinNl (old new : List Char) (o : Char) (os : List Char)
    (hold : old = o :: os) (hfree : nlFree old) :
    ∀ ls : List (List Char),
      replaceAll old new (joinNl ls) = joinNl (ls.map (replaceAll old new)) := by
  intro ls
  induction ls with
  | nil => subst hold; rfl
  | cons l ls ih =>
    cases ls with
    | nil => rfl
    | cons m ms =>
      rw [joinNl_cons _ _ (by simp),
        replaceAll_nl_append old new l (joinNl (m :: ms)) o os hold hfree, ih]
      rw [show (l :: m :: ms).map (replaceAll old new)
            = replaceAll old new l :: (m :: ms).map (replaceAll old new) from rfl]
      rw [joinNl_cons _ _ (by simp)]

theorem mem_replGo (old new : List Char) :
    ∀ (s : List Char) (n : Nat) (c : Char), c ∈ replGo old new n s → c ∈ new ∨ c ∈ s := by
  intro s
  induction s with
  | nil => intro n c hc; cases n <;> simp [replGo] at hc
  | cons x xs ih =>
    intro n c hc
    cases n with
    | zero =>
      rw [replGo] at hc
      by_cases hp : old.isPrefixOf (x :: xs) = true
      · rw [if_pos hp] at hc
        rcases List.mem_append.mp hc with h | h
        · exact Or.inl h
        · rcases ih _ _ h with h' | h'
          · exact Or.inl h'
          · exact Or.inr (List.mem_cons_of_mem x h')
      · rw [if_neg hp] at hc
        rcases List.mem_cons.mp hc with rfl | h
        · exact Or.inr (List.mem_cons_self _ _)
        · rcases ih _ _ h with h' | h'
          · exact Or.inl h'
          · exact Or.inr (List.mem_cons_of_mem x h')
    | succ n =>
      rw [replGo] at hc
      rcases ih _ _ hc with h' | h'
      · exact Or.inl h'
      · exact Or.inr (List.mem_cons_of_mem x h')

theorem nlFree_replaceAll (old new s : List Char) (hnew : nlFree new) (hs : nlFree s) :
    nlFree (replaceAll old new s) := by
  cases old with
  | nil => exact hs
  | cons o os =>
    intro c hc
    rcases mem_replGo (o :: os) new s 0 c hc with h | h
    · exact hnew c h
    · exact hs c h

/-- An occurrence of `q ++ "\n"` in a text gives a line of the text with
suffix `q`. -/
theorem line_of_contains_nl : ∀ (s q : List Char), nlFree q →
    containsSub (q ++ ['\n']) s = true → ∃ l ∈ splitOnNl s, q <:+ l := by
  intro s
  induction s with
  | nil =>
    intro q hq h
    rw [containsSub, List.isPrefixOf_iff_prefix] at h
    have := List.prefix_nil.mp (by exact_mod_cast h)
    simp at this
  | cons c cs ih =>
    intro q hq h
    rw [containsSub, Bool.or_eq_true] at h
    rcases h with h | h
    · rw [ List.isPrefixOf_iff_prefix] at h
      obtain ⟨rest, hrest⟩ := h
      rw [List.append_assoc, List.singleton_append] at hrest
      rw [← hrest, splitOnNl_append q rest hq]
      exact ⟨q, List.mem_cons_self _ _, List.suffix_refl q⟩
    · obtain ⟨l, hl, hsuf⟩ := ih q hq h
      by_cases hc : c = '\n'
      · subst hc
        rw [splitOnNl_nl]
        exact ⟨l, List.mem_cons_of_mem _ hl, hsuf⟩
      · rw [splitOnNl_cons_ne c cs hc]
        cases hs : splitOnNl cs with
        | nil => exact absurd hs (splitOnNl_ne_nil cs)
        | cons b bs =>
          rw [hs] at hl
          rcases List.mem_cons.mp hl with rfl | hl'
          · exact ⟨c :: l, List.mem_cons_self _ _, hsuf.trans (List.suffix_cons c l)⟩
          · exact ⟨l, List.mem_cons_of_mem _ hl', hsuf⟩

/-! ## Lemmas about the `%`-word padding pass -/

theorem addLBGo_false_cons_ne (c : Char) (hc : c ≠ '%') (cs : List Char) :
    addLBGo false (c :: cs) = c :: addLBGo false cs := by
  cases cs <;> simp [addLBGo, hc]

theorem addLBGo_false_pct_alpha (d : Char) (hd : d.isAlpha = true) (ds : List Char) :
    addLBGo false ('%' :: d :: ds) = '%' :: d :: addLBGo true ds := by
  simp [addLBGo, hd]

theorem addLBGo_false_pct_not_alpha (d : Char) (hd : d.isAlpha = false) (ds : List Char) :
    addLBGo false ('%' :: d :: ds) = '%' :: addLBGo false (d :: ds) := by
  simp [addLBGo, hd]

theorem hasPW_cons_ne (c : Char) (hc : c ≠ '%') (cs : List Char) :
    hasPW (c :: cs) = hasPW cs := by
  cases cs <;> simp [hasPW, hc]

theorem hasPW_pct_alpha (d : Char) (hd : d.isAlpha = true) (ds : List Char) :
    hasPW ('%' :: d :: ds) = true := by
  simp [hasPW, hd]

theorem hasPW_pct_not_alpha (d : Char) (hd : d.isAlpha = false) (ds : List Char) :
    hasPW ('%' :: d :: ds) = hasPW (d :: ds) := by
  simp [hasPW, hd]

theorem addLBGo_true_append (a b : List Char) (ha : nlFree a) :
    addLBGo true (a ++ '\n' :: b) = a ++ '\n' :: '\n' :: addLBGo false b := by
  induction a with
  | nil => simp [addLBGo]
  | cons c a' ih =>
    have hc : c ≠ '\n' := ha c (by simp)
    rw [List.cons_append]
    simp only [addLBGo]
    rw [if_neg hc, ih (fun x hx => ha x (by simp [hx]))]
    rfl

theorem addLBGo_true_nlFree (a : List Char) (ha : nlFree a) :
    addLBGo true a = a ++ ['\n', '\n'] := by
  induction a with
  | nil => rfl
  | cons c a' ih =>
    have hc : c ≠ '\n' := ha c (by simp)
    simp only [addLBGo]
    rw [if_neg hc, ih (fun x hx => ha x (by simp [hx]))]
    rfl

theorem addLBGo_false_append_aux : ∀ (n : Nat) (a b : List Char), a.length ≤ n → nlFree a →
    addLBGo false (a ++ '\n' :: b)
      = a ++ (if hasPW a then ['\n', '\n'] else ['\n']) ++ addLBGo false b := by
  intro n
  induction n with
  | zero =>
    intro a b ha _
    have hnil : a = [] := List.length_eq_zero.mp (Nat.le_zero.mp ha)
    subst hnil
    rw [List.nil_append, addLBGo_false_cons_ne '\n' (by decide) b]
    simp [hasPW]
  | succ n ih =>
    intro a b ha hf
    cases a with
    | nil =>
      rw [List.nil_append, addLBGo_false_cons_ne '\n' (by decide) b]
      simp [hasPW]
    | cons c a' =>
      have hf' : nlFree a' := fun x hx => hf x (by simp [hx])
      by_cases hc : c = '%'
      · subst hc
        cases a' with
        | nil =>
          rw [show ['%'] ++ '\n' :: b = '%' :: '\n' :: b from rfl,
            addLBGo_false_pct_not_alpha '\n' (by decide) b,
            addLBGo_false_cons_ne '\n' (by decide) b]
          simp [hasPW]
        | cons d a'' =>
          have hf'' : nlFree a'' := fun x hx => hf' x (by simp [hx])
          by_cases hd : d.isAlpha = true
          · rw [show ('%' :: d :: a'') ++ '\n' :: b = '%' :: d :: (a'' ++ '\n' :: b) from rfl,
              addLBGo_false_pct_alpha d hd _, addLBGo_true_append a'' b hf'',
              hasPW_pct_alpha d hd a'']
            simp
          · simp only [Bool.not_eq_true] at hd
            rw [show ('%' :: d :: a'') ++ '\n' :: b = '%' :: d :: (a'' ++ '\n' :: b) from rfl,
              addLBGo_false_pct_not_alpha d hd _,
              show d :: (a'' ++ '\n' :: b) = (d :: a'') ++ '\n' :: b from rfl,
              ih (d :: a'') b (by simpa using ha) hf',
              hasPW_pct_not_alpha d hd a'']
            simp
      · rw [List.cons_append, addLBGo_false_cons_ne c hc _,
          ih a' b (by simpa using ha) hf', hasPW_cons_ne c hc a']
        simp

theorem addLBGo_false_append (a b : List Char) (ha : nlFree a) :
    addLBGo false (a ++ '\n' :: b)
      = a ++ (if hasPW a then ['\n', '\n'] else ['\n']) ++ addLBGo false b :=
  addLBGo_false_append_aux a.length a b (Nat.le_refl _) ha

theorem addLBGo_false_nlFree_aux : ∀ (n : Nat) (a : List Char), a.length ≤ n → nlFree a →
    addLBGo false a = a ++ (if hasPW a then ['\n', '\n'] else []) := by
  intro n
  induction n with
  | zero =>
    intro a ha _
    have hnil : a = [] := List.length_eq_zero.mp (Nat.le_zero.mp ha)
    subst hnil
    simp [addLBGo, hasPW]
  | succ n ih =>
    intro a ha hf
    cases a with
    | nil => simp [addLBGo, hasPW]
    | cons c a' =>
      have hf' : nlFree a' := fun x hx => hf x (by simp [hx])
      by_cases hc : c = '%'
      · subst hc
        cases a' with
        | nil => simp [addLBGo, hasPW]
        | cons d a'' =>
          have hf'' : nlFree a'' := fun x hx => hf' x (by simp [hx])
          by_cases hd : d.isAlpha = true
          · rw [addLBGo_false_pct_alpha d hd _, addLBGo_true_nlFree a'' hf'',
              hasPW_pct_alpha d hd a'']
            simp
          · simp only [Bool.not_eq_true] at hd
            rw [addLBGo_false_pct_not_alpha d hd _,
              ih (d :: a'') (by simpa using ha) hf',
              hasPW_pct_not_alpha d hd a'']
            simp
      · rw [addLBGo_false_cons_ne c hc _, ih a' (by simpa using ha) hf',
          hasPW_cons_ne c hc a']
        simp

theorem addLBGo_false_nlFree (a : List Char) (ha : nlFree a) :
    addLBGo false a = a ++ (if hasPW a then ['\n', '\n'] else []) :=
  addLBGo_false_nlFree_aux a.length a (Nat.le_refl _) ha

theorem addLB_lines : ∀ ls : List (List Char), (∀ l ∈ ls, nlFree l) →
    addLBGo false (joinNl (ls ++ [[]]))
      = (ls.map (fun l => l ++ if hasPW l then ['\n', '\n'] else ['\n'])).flatten := by
  intro ls
  induction ls with
  | nil => intro _; rfl
  | cons l ls ih =>
    intro hfree
    rw [List.cons_append, joinNl_cons _ _ (by simp),
      addLBGo_false_append l (joinNl (ls ++ [[]])) (hfree l (by simp)),
      ih (fun x hx => hfree x (List.mem_cons_of_mem l hx))]
    simp

/-! ## Lemmas about `process_magic_commands` -/

/-- The rewriting applied to one line inside a markdown cell by
`process_magic_commands`: comment lines get the `# MAGIC` marker back,
other lines are untouched. -/
def mdRewrite (l : List Char) : List Char :=
  if pyStartsWith ['#'] l then S "# MAGIC" ++ l.drop 1 else l

theorem pmcGo_true_split (ls : List (List Char)) :
    pmcGo true ls
      = (ls.takeWhile (fun l => !pyStartsWith sepLine l)).map mdRewrite
        ++ pmcGo false (ls.dropWhile (fun l => !pyStartsWith sepLine l)) := by
  induction ls with
  | nil => rfl
  | cons l ls ih =>
    by_cases h : pyStartsWith sepLine l = true
    · rw [List.takeWhile_cons, List.dropWhile_cons]
      simp only [h, Bool.not_true, Bool.false_eq_true, if_false, List.map_nil,
        List.nil_append]
      simp only [pmcGo, h, if_true]
    · have h' : pyStartsWith sepLine l = false := by
        cases hb : pyStartsWith sepLine l
        · rfl
        · exact absurd hb h
      rw [List.takeWhile_cons, List.dropWhile_cons]
      simp only [h', Bool.not_false, if_true, List.map_cons, List.cons_append]
      simp only [pmcGo, h', Bool.false_eq_true, if_false, mdRewrite]
      rw [ih]

/-! ## Lemmas about `split_script` -/

theorem splitScriptGo_no_sep : ∀ lines cur : List (List Char),
    (∀ l ∈ cur, pyStrip l ≠ sepLine) → (∀ l ∈ cur, nlFree l) →
    (∀ l ∈ lines, nlFree l) →
    ∀ b ∈ splitScriptGo cur lines, ∀ l ∈ splitOnNl b, pyStrip l ≠ sepLine := by
  intro lines
  induction lines with
  | nil =>
    intro cur hcur hcf _ b hb l hl
    by_cases hc : cur = []
    · simp [splitScriptGo, hc] at hb
    · simp only [splitScriptGo, if_neg hc, List.mem_singleton] at hb
      subst hb
      rw [splitOnNl_joinNl cur hc hcf] at hl
      exact hcur l hl
  | cons x xs ih =>
    intro cur hcur hcf hnl b hb l hl
    have hnl' : ∀ l ∈ xs, nlFree l := fun y hy => hnl y (List.mem_cons_of_mem x hy)
    by_cases hx : pyStrip x = sepLine
    · simp only [splitScriptGo, if_pos hx] at hb
      by_cases hc : cur = []
      · rw [if_pos hc] at hb
        exact ih [] (by simp) (by simp) hnl' b hb l hl
      · rw [if_neg hc] at hb
        rcases List.mem_cons.mp hb with rfl | hb'
        · rw [splitOnNl_joinNl cur hc hcf] at hl
          exact hcur l hl
        · exact ih [] (by simp) (by simp) hnl' b hb' l hl
    · simp only [splitScriptGo, if_neg hx] at hb
      refine ih (cur ++ [x]) ?_ ?_ hnl' b hb l hl
      · intro y hy
        rcases List.mem_append.mp hy with hy' | hy'
        · exact hcur y hy'
        · rw [List.mem_singleton.mp hy']
          exact hx
      · intro y hy
        rcases List.mem_append.mp hy with hy' | hy'
        · exact hcf y hy'
        · rw [List.mem_singleton.mp hy']
          exact hnl x (List.mem_cons_self x xs)

/-! ## Overlap-freeness for the extension-swapping `replace` -/

theorem isPrefixOf_overlap_false (hd : Char) (t : List Char) (hne : ∀ c ∈ t, c ≠ hd)
    (x : List Char) (hx : x ≠ []) (hlen : x.length < (hd :: t).length) :
    (hd :: t).isPrefixOf (x ++ hd :: t) = false := by
  by_contra hcon
  simp only [Bool.not_eq_false] at hcon
  rw [ List.isPrefixOf_iff_prefix] at hcon
  obtain ⟨r, hr⟩ := hcon
  cases x with
  | nil => exact absurd rfl hx
  | cons hd' x' =>
    rw [List.cons_append, List.cons_append] at hr
    obtain ⟨-, htail⟩ := List.cons.inj hr
    have hlen' : x'.length + 1 ≤ t.length := by
      simp only [List.length_cons] at hlen
      omega
    have h2 : (t ++ r).take (x'.length + 1) = t.take (x'.length + 1) :=
      List.take_append_of_le_length hlen'
    rw [htail, List.take_append 1, show List.take 1 (hd :: t) = [hd] from rfl] at h2
    have h3 : hd ∈ t := by
      refine List.take_subset (x'.length + 1) t ?_
      rw [← h2]
      simp
    exact hne hd h3 rfl

theorem replaceAll_swap_ext (old new q : List Char) (hd : Char) (t : List Char)
    (hold : old = hd :: t) (hne : ∀ c ∈ t, c ≠ hd)
    (hq : containsSub old q = false) :
    replaceAll old new (q ++ old) = q ++ new := by
  have H : ∀ i, i < q.length → old.isPrefixOf ((q ++ old).drop i) = false := by
    intro i hi
    rw [List.drop_append_of_le_length (Nat.le_of_lt hi)]
    have hxne : q.drop i ≠ [] := by
      apply List.ne_nil_of_length_pos
      rw [List.length_drop]
      omega
    by_cases hlen : (q.drop i).length < old.length
    · subst hold
      exact isPrefixOf_overlap_false hd t hne (q.drop i) hxne hlen
    · push_neg at hlen
      by_contra hpf
      simp only [Bool.not_eq_false] at hpf
      rw [isPrefixOf_append_of_le old (q.drop i) old hlen] at hpf
      have hinf : old <:+: q := by
        obtain ⟨v, hv⟩ := List.isPrefixOf_iff_prefix.mp hpf
        obtain ⟨u, hu⟩ := List.drop_suffix i q
        exact ⟨u, v, by rw [List.append_assoc, hv, hu]⟩
      rw [containsSub_eq_false_iff] at hq
      exact hq hinf
  rw [replaceAll_append_scan old new hd t hold q old H]
  have h0 : containsSub old [] = false := by
    subst hold
    simp [containsSub, List.isPrefixOf]
  have := replaceAll_head_occurrence old new [] hd t hold h0
  rw [List.append_nil, List.append_nil] at this
  rw [this]

/-! ## Conversion of a well-formed markdown block -/

theorem replaceAll_nil (old new : List Char) : replaceAll old new [] = [] := by
  cases old <;> rfl

theorem joinNl_append_nil : ∀ ls : List (List Char), ls ≠ [] →
    joinNl (ls ++ [[]]) = joinNl ls ++ ['\n'] := by
  intro ls
  induction ls with
  | nil => intro h; exact absurd rfl h
  | cons l ls ih =>
    intro _
    cases ls with
    | nil => rfl
    | cons m ms =>
      rw [List.cons_append, joinNl_cons _ _ (by simp), joinNl_cons l (m :: ms) (by simp),
        ih (by simp)]
      simp

/-- Well-formedness of one content line of a Databricks markdown cell: no
newline, the line does not end in the `# MAGIC %md` marker, and it is either
blank or carries `# MAGIC ` exactly once, at its start. -/
def mdLineOk (l : List Char) : Prop :=
  nlFree l ∧ (S "# MAGIC %md").isSuffixOf l = false ∧
    (l = [] ∨ ((S "# MAGIC ").isPrefixOf l = true ∧
      containsSub (S "# MAGIC ") (l.drop 1) = false))

instance (l : List Char) : Decidable (mdLineOk l) := by
  unfold mdLineOk; infer_instance

/-- A well-formed Databricks markdown block: a blank first line (the blank
line after the separator), the `# MAGIC %md` marker line, then content
lines. -/
def mdBlock (ls : List (List Char)) : List Char :=
  joinNl ([] :: S "# MAGIC %md" :: ls)

/-- The `# MAGIC ` to `# ` rewriting of one markdown line. -/
def mdStripped (l : List Char) : List Char := replaceAll (S "# MAGIC ") (S "# ") l

/-- What one markdown content line contributes to the percent-format output:
its `# MAGIC ` marker rewritten to `# `, and the following line break
doubled when the rewritten line still contains a `%`-word. -/
def mdEmit (l : List Char) : List Char :=
  mdStripped l ++ (if hasPW (mdStripped l) then ['\n', '\n'] else ['\n'])

theorem dbChunkCore_mdBlock (ls : List (List Char)) (h : ∀ l ∈ ls, mdLineOk l) :
    dbChunkCore (mdBlock ls) = S "# %% [markdown]\n" ++ (ls.map mdEmit).flatten := by
  cases ls with
  | nil => decide
  | cons m ms =>
    have hfree : ∀ l ∈ m :: ms, nlFree l := fun l hl => (h l hl).1
    have hblock : mdBlock (m :: ms)
        = '\n' :: (S "# MAGIC %md" ++ '\n' :: joinNl (m :: ms)) := by
      unfold mdBlock
      rw [joinNl_cons [] _ (by simp), joinNl_cons _ (m :: ms) (by simp)]
      rfl
    have hmag : containsSub (S "# MAGIC") (mdBlock (m :: ms)) = true := by
      rw [containsSub_infix_iff, hblock]
      refine ⟨['\n'], S " %md" ++ '\n' :: joinNl (m :: ms), ?_⟩
      rw [show S "# MAGIC %md" = S "# MAGIC" ++ S " %md" from by decide]
      simp
    have hinput : S "# %% [markdown]" ++ mdBlock (m :: ms) ++ ['\n']
        = S "# %% [markdown]\n" ++ (S "# MAGIC %md\n" ++ (joinNl (m :: ms) ++ ['\n'])) := by
      rw [hblock,
        show S "# %% [markdown]\n" = S "# %% [markdown]" ++ ['\n'] from by decide,
        show S "# MAGIC %md\n" = S "# MAGIC %md" ++ ['\n'] from by decide]
      simp
    have hT : containsSub (S "# MAGIC %md\n") (joinNl (m :: ms) ++ ['\n']) = false := by
      by_contra hcon
      simp only [Bool.not_eq_false] at hcon
      rw [show S "# MAGIC %md\n" = S "# MAGIC %md" ++ ['\n'] from by decide] at hcon
      obtain ⟨l, hl, hsuf⟩ := line_of_contains_nl _ (S "# MAGIC %md") (by decide) hcon
      rw [show joinNl (m :: ms) ++ ['\n'] = joinNl ((m :: ms) ++ [[]])
          from (joinNl_append_nil (m :: ms) (by simp)).symm] at hl
      rw [splitOnNl_joinNl ((m :: ms) ++ [[]]) (by simp) (by
        intro x hx
        rcases List.mem_append.mp hx with hx' | hx'
        · exact hfree x hx'
        · rw [List.mem_singleton.mp hx']
          intro c hc
          simp at hc)] at hl
      rcases List.mem_append.mp hl with hl' | hl'
      · have h2 : (S "# MAGIC %md").isSuffixOf l = true := List.isSuffixOf_iff_suffix.mpr hsuf
        rw [(h l hl').2.1] at h2
        cases h2
      · rw [List.mem_singleton.mp hl'] at hsuf
        have h3 := List.suffix_nil.mp hsuf
        exact absurd h3 (by decide)
    have hrepl1 : replaceAll (S "# MAGIC %md\n") [] (S "# %% [markdown]" ++ mdBlock (m :: ms) ++ ['\n'])
        = S "# %% [markdown]\n" ++ (joinNl (m :: ms) ++ ['\n']) := by
      rw [hinput,
        replaceAll_concrete_scan (S "# MAGIC %md\n") [] '#' (S " MAGIC %md\n") (by decide)
          (S "# %% [markdown]\n") _ (by decide)]
      congr 1
      have h4 := replaceAll_head_occurrence (S "# MAGIC %md\n") []
        (joinNl (m :: ms) ++ ['\n']) '#' (S " MAGIC %md\n") (by decide) hT
      rw [h4]
      simp
    have hview : S "# %% [markdown]\n" ++ (joinNl (m :: ms) ++ ['\n'])
        = joinNl (S "# %% [markdown]" :: ((m :: ms) ++ [[]])) := by
      have h1 : joinNl (S "# %% [markdown]" :: ((m :: ms) ++ [[]]))
          = S "# %% [markdown]" ++ '\n' :: joinNl ((m :: ms) ++ [[]]) :=
        joinNl_cons _ _ (by simp)
      rw [h1, joinNl_append_nil (m :: ms) (by simp),
        show S "# %% [markdown]\n" = S "# %% [markdown]" ++ ['\n'] from by decide]
      simp
    have hrepl2 : replaceAll (S "# MAGIC ") (S "# ")
          (S "# %% [markdown]\n" ++ (joinNl (m :: ms) ++ ['\n']))
        = S "# %% [markdown]" ++ '\n' :: joinNl ((m :: ms).map mdStripped ++ [[]]) := by
      rw [hview,
        replaceAll_joinNl (S "# MAGIC ") (S "# ") '#' (S " MAGIC ") (by decide) (by decide) _,
        List.map_cons,
        replaceAll_of_not_contains (S "# MAGIC ") (S "# ") (S "# %% [markdown]") (by decide),
        joinNl_cons _ _ (by simp)]
      have hmaps : ((m :: ms) ++ [[]]).map (replaceAll (S "# MAGIC ") (S "# "))
          = (m :: ms).map mdStripped ++ [[]] := by
        rw [List.map_append]
        congr 1
      rw [hmaps]
    have hstrfree : ∀ l ∈ (m :: ms).map mdStripped, nlFree l := by
      intro x hx
      obtain ⟨y, hy, rfl⟩ := List.mem_map.mp hx
      exact nlFree_replaceAll _ _ y (by decide) (hfree y hy)
    have haddlb : addLBGo false
          (S "# %% [markdown]" ++ '\n' :: joinNl ((m :: ms).map mdStripped ++ [[]]))
        = S "# %% [markdown]" ++ '\n' :: ((m :: ms).map mdEmit).flatten := by
      rw [addLBGo_false_append (S "# %% [markdown]") _ (by decide),
        show hasPW (S "# %% [markdown]") = false from by decide,
        addLB_lines ((m :: ms).map mdStripped) hstrfree, List.map_map]
      simp only [if_false, Bool.false_eq_true]
      rw [show ((fun l => l ++ if hasPW l = true then ['\n', '\n'] else ['\n']) ∘ mdStripped)
          = mdEmit from rfl]
      simp
    unfold dbChunkCore add_linebreak_after_percent_words
    rw [if_pos hmag, hrepl1, hrepl2, haddlb,
      show S "# %% [markdown]\n" = S "# %% [markdown]" ++ ['\n'] from by decide]
    simp

/-! ## Shared helpers for the claims -/

theorem dbChunk_infix_parse (b0 x : List Char) (bs1 bs2 : List (List Char)) :
    dbChunkCore x <:+: parse_dbnotebook (b0 :: (bs1 ++ x :: bs2)) := by
  refine ⟨dbChunkCore (firstBlockAdjust b0) ++ (bs1.map dbChunkCore).flatten,
    (bs2.map dbChunkCore).flatten, ?_⟩
  simp [parse_dbnotebook]

theorem mdflat_ends_nl (pre : List (List Char)) :
    ∃ u, S "# %% [markdown]\n" ++ (pre.map mdEmit).flatten = u ++ ['\n'] := by
  rcases pre.eq_nil_or_concat with rfl | ⟨xs, x, rfl⟩
  · exact ⟨S "# %% [markdown]", by decide⟩
  · have hx : mdEmit x
        = (mdStripped x ++ (if hasPW (mdStripped x) then ['\n'] else [])) ++ ['\n'] := by
      unfold mdEmit
      by_cases hp : hasPW (mdStripped x) = true <;> simp [hp]
    refine ⟨S "# %% [markdown]\n" ++ (xs.map mdEmit).flatten
      ++ (mdStripped x ++ (if hasPW (mdStripped x) then ['\n'] else [])), ?_⟩
    rw [List.concat_eq_append, List.map_append, List.flatten_append]
    simp [hx]

/-! ## The claims -/

/-- C1: the spec's round-trip property fails on the code.  Round-tripping the
Databricks text `"# Databricks notebook source\n#\n"` (a notebook whose only
cell is the bare comment line `#`) through `split_script`,
`parse_dbnotebook` and `parse_jupyter_notebook` yields
`"# Databricks notebook source\n"`: the `#` line is deleted by the
`replace("#\n", "")` step of `parse_jupyter_notebook`, so the result differs
from the input even modulo blank-line normalization (the sequences of
non-blank lines differ). -/
theorem C1_roundtrip_deletes_hash_line :
    parse_jupyter_notebook (parse_dbnotebook (split_script
        (S "# Databricks notebook source\n#\n")))
      = S "# Databricks notebook source\n"
    ∧ (splitOnNl (S "# Databricks notebook source\n#\n")).filter
          (fun l => !(pyStrip l).isEmpty)
      ≠ (splitOnNl (parse_jupyter_notebook (parse_dbnotebook (split_script
          (S "# Databricks notebook source\n#\n"))))).filter
          (fun l => !(pyStrip l).isEmpty) := by
  constructor
  · decide
  · decide

/-- C2 (counterexample): a block whose first line is `# MAGIC %md` is not
always emitted as a markdown cell.  Passed as the first block, the
single-line block `# MAGIC %md` loses its only line to the first-block
stripping and is emitted as the plain code cell `# %%`, with no markdown
marker at all. -/
theorem C2_counterexample :
    parse_dbnotebook [S "# MAGIC %md"] = S "# %%\n\n"
    ∧ containsSub (S "[markdown]") (parse_dbnotebook [S "# MAGIC %md"]) = false := by
  constructor
  · decide
  · decide

/-- C2 (amended): for every block after the first of the shape produced by
`split_script` on a well-formed file — a blank line, then `# MAGIC %md`,
then content lines that are blank or carry `# MAGIC ` exactly once at the
start and do not end in `# MAGIC %md` — `parse_dbnotebook` emits the block
as a markdown cell: the output contains `# %% [markdown]` on its own line
followed by the content lines with each `# MAGIC ` prefix rewritten to `# `
(not removed), with blank-line padding added after lines still containing a
`%`-word. -/
theorem C2_markdown_block (b0 : List Char) (bs1 bs2 ls : List (List Char))
    (h : ∀ l ∈ ls, mdLineOk l) :
    (S "# %% [markdown]\n" ++ (ls.map mdEmit).flatten)
      <:+: parse_dbnotebook (b0 :: (bs1 ++ mdBlock ls :: bs2)) := by
  rw [← dbChunkCore_mdBlock ls h]
  exact dbChunk_infix_parse b0 (mdBlock ls) bs1 bs2

/-- C2 (witness): the amended statement applied to one concrete markdown
block with one content line. -/
theorem C2_markdown_block_witness :
    (∀ l ∈ [S "# MAGIC hi"], mdLineOk l)
    ∧ (S "# %% [markdown]\n" ++ (([S "# MAGIC hi"]).map mdEmit).flatten)
        <:+: parse_dbnotebook (S "x" :: ([] ++ mdBlock [S "# MAGIC hi"] :: [])) :=
  ⟨by decide, C2_markdown_block (S "x") [] [] [S "# MAGIC hi"] (by decide)⟩

/-- C3 (counterexample): the line `# MAGIC %sql SELECT 1` in a markdown
block is rewritten to `# %sql SELECT 1` (a commented magic line), not to
`%sql SELECT 1` as the claim states: no output line equals
`%sql SELECT 1`. -/
theorem C3_counterexample :
    splitOnNl (parse_dbnotebook [S "h", S "\n# MAGIC %sql SELECT 1"])
      = [S "# %%", [], S "# %% [markdown]", S "# %sql SELECT 1", [], []]
    ∧ (S "%sql SELECT 1") ∉ splitOnNl (parse_dbnotebook [S "h", S "\n# MAGIC %sql SELECT 1"]) := by
  constructor
  · decide
  · decide

/-- C3 (amended): in every well-formed markdown block after the first block
(blank line, `# MAGIC %md` line, then well-formed content lines) containing
the line `# MAGIC %sql SELECT 1`, the conversion to percent format turns
that line into `# %sql SELECT 1` followed by a blank line: the output of
`parse_dbnotebook` contains `\n# %sql SELECT 1\n\n`. -/
theorem C3_sql_line (b0 : List Char) (bs1 bs2 pre post : List (List Char))
    (h : ∀ l ∈ pre ++ S "# MAGIC %sql SELECT 1" :: post, mdLineOk l) :
    (S "\n# %sql SELECT 1\n\n")
      <:+: parse_dbnotebook
        (b0 :: (bs1 ++ mdBlock (pre ++ S "# MAGIC %sql SELECT 1" :: post) :: bs2)) := by
  have h1 : (S "\n# %sql SELECT 1\n\n")
      <:+: dbChunkCore (mdBlock (pre ++ S "# MAGIC %sql SELECT 1" :: post)) := by
    rw [dbChunkCore_mdBlock (pre ++ S "# MAGIC %sql SELECT 1" :: post) h,
      List.map_append, List.map_cons, List.flatten_append, List.flatten_cons]
    obtain ⟨u, hu⟩ := mdflat_ends_nl pre
    refine ⟨u, (post.map mdEmit).flatten, ?_⟩
    rw [show mdEmit (S "# MAGIC %sql SELECT 1") = S "# %sql SELECT 1\n\n" from by decide,
      show S "\n# %sql SELECT 1\n\n" = '\n' :: S "# %sql SELECT 1\n\n" from by decide,
      ← List.append_assoc (S "# %% [markdown]\n"), hu]
    simp
  exact h1.trans (dbChunk_infix_parse b0 _ bs1 bs2)

/-- C3 (witness): the amended statement applied to one concrete block. -/
theorem C3_sql_line_witness :
    (∀ l ∈ [] ++ S "# MAGIC %sql SELECT 1" :: [], mdLineOk l)
    ∧ (S "\n# %sql SELECT 1\n\n")
        <:+: parse_dbnotebook
          (S "h" :: ([] ++ mdBlock ([] ++ S "# MAGIC %sql SELECT 1" :: []) :: [])) :=
  ⟨by decide, C3_sql_line (S "h") [] [] [] [] (by decide)⟩

/-- C4 (counterexample): a line inside a markdown cell that does not start
with `#` is left without any `# MAGIC` prefix in the Databricks output: for
the percent input `# %% [markdown]\nhello\n# %%\nx = 1\n`, the line `hello`
lies strictly between the `# MAGIC %md` line and the next
`# COMMAND ----------` separator and carries no `# MAGIC` prefix. -/
theorem C4_counterexample :
    splitOnNl (parse_jupyter_notebook (S "# %% [markdown]\nhello\n# %%\nx = 1\n"))
      = [S "# Databricks notebook source", S "# MAGIC %md", S "hello",
         S "# COMMAND ----------", [], S "x = 1", []]
    ∧ pyStartsWith (S "# MAGIC") (S "hello") = false := by
  constructor
  · decide
  · decide

/-- C4 (amended): after a line whose stripped form is `# MAGIC %md`,
`process_magic_commands` rewrites every following line up to the next line
starting with `# COMMAND ----------` as follows: lines starting with `#`
get the `# MAGIC` prefix (`#` is replaced by `# MAGIC`), and lines not
starting with `#` are left unchanged. -/
theorem C4_magic_marker :
    (∀ ls : List (List Char),
      pmcGo true ls
        = (ls.takeWhile (fun l => !pyStartsWith sepLine l)).map mdRewrite
          ++ pmcGo false (ls.dropWhile (fun l => !pyStartsWith sepLine l)))
    ∧ (∀ (l : List Char) (ls : List (List Char)), pyStrip l = S "# MAGIC %md" →
        pmcGo false (l :: ls) = l :: pmcGo true ls) := by
  constructor
  · exact pmcGo_true_split
  · intro l ls hl
    simp [pmcGo, hl]

/-- C4 (witness): the amended statement applied to a two-line markdown
cell. -/
theorem C4_magic_marker_witness :
    pyStrip (S "# MAGIC %md") = S "# MAGIC %md"
    ∧ pmcGo false [S "# MAGIC %md", S "hello"]
        = S "# MAGIC %md" :: pmcGo true [S "hello"] :=
  ⟨by decide, C4_magic_marker.2 (S "# MAGIC %md") [S "hello"] (by decide)⟩

/-- C5 (counterexample): the blank-line collapsing is a single `replace`
pass, so long newline runs survive it: the percent input `x\n\n\n\n\n\ny`
(five blank lines between `x` and `y`, hence containing runs of three
consecutive blank lines) produces a Databricks output that still contains a
run of three consecutive blank lines. -/
theorem C5_counterexample :
    splitOnNl (parse_jupyter_notebook (S "x\n\n\n\n\n\ny"))
      = [S "# Databricks notebook source", S "x", [], [], [], S "y"]
    ∧ containsSub (S "\n\n\n") (parse_jupyter_notebook (S "x\n\n\n\n\n\ny")) = true := by
  constructor
  · decide
  · decide

theorem not_contains_nl3_of_nlFree (s : List Char) (hs : nlFree s) :
    containsSub (S "\n\n\n") s = false := by
  induction s with
  | nil => decide
  | cons c cs ih =>
    have hc : c ≠ '\n' := hs c (by simp)
    simp only [containsSub]
    have h1 : (S "\n\n\n").isPrefixOf (c :: cs) = false := by
      rw [show S "\n\n\n" = ['\n', '\n', '\n'] from by decide]
      simp [List.isPrefixOf, Ne.symm hc]
    rw [h1, ih (fun x hx => hs x (by simp [hx]))]
    rfl

/-- C5 (amended): the blank-line trimming step of `parse_jupyter_notebook`
(the single left-to-right `replace` of `\n\n\n` by `\n\n`) collapses a run
of exactly three blank lines between two newline-free segments to two blank
lines; longer runs are only partially collapsed (see the counterexample),
so the output can retain three consecutive blank lines. -/
theorem C5_trim_exact_three (a b : List Char) (ha : nlFree a) (hb : nlFree b) :
    trimTripleNewlines (a ++ S "\n\n\n\n" ++ b) = a ++ S "\n\n\n" ++ b := by
  unfold trimTripleNewlines
  rw [List.append_assoc,
    replaceAll_append_scan (S "\n\n\n") (S "\n\n") '\n' (S "\n\n") (by decide) a _ ?H]
  case H =>
    intro i hi
    rw [List.drop_append_of_le_length (Nat.le_of_lt hi)]
    cases hd : a.drop i with
    | nil =>
      exfalso
      have h2 := congrArg List.length hd
      rw [List.length_drop] at h2
      simp at h2
      omega
    | cons c cs =>
      have hc : c ≠ '\n' := ha c (List.drop_subset i a (hd ▸ List.mem_cons_self c cs))
      rw [show S "\n\n\n" = ['\n', '\n', '\n'] from by decide]
      simp [List.isPrefixOf, Ne.symm hc]
  rw [List.append_assoc]
  congr 1
  rw [show S "\n\n\n\n" ++ b = S "\n\n\n" ++ ('\n' :: b) from by
    rw [show S "\n\n\n\n" = S "\n\n\n" ++ ['\n'] from by decide]
    simp]
  have hnc : containsSub (S "\n\n\n") ('\n' :: b) = false := by
    simp only [containsSub]
    have h3 : (S "\n\n\n").isPrefixOf ('\n' :: b) = false := by
      rw [show S "\n\n\n" = ['\n', '\n', '\n'] from by decide]
      cases b with
      | nil => decide
      | cons c cs =>
        have hc : c ≠ '\n' := hb c (by simp)
        simp [List.isPrefixOf, Ne.symm hc]
    rw [h3, not_contains_nl3_of_nlFree b hb]
    rfl
  rw [replaceAll_head_occurrence (S "\n\n\n") (S "\n\n") ('\n' :: b) '\n' (S "\n\n")
    (by decide) hnc,
    show S "\n\n\n" = S "\n\n" ++ ['\n'] from by decide]
  simp

/-- C5 (witness): the amended statement at a concrete input: `x`, three
blank lines, `y`. -/
theorem C5_trim_exact_three_witness :
    nlFree (S "x") ∧ nlFree (S "y")
    ∧ trimTripleNewlines (S "x" ++ S "\n\n\n\n" ++ S "y")
        = S "x" ++ S "\n\n\n" ++ S "y" :=
  ⟨by decide, by decide, C5_trim_exact_three (S "x") (S "y") (by decide) (by decide)⟩

/-- C6: for every `.py` input whose content does not contain the literal
`# Databricks notebook source`, `main` hits the format assertion: the
dispatch ends in the assertion error, before any conversion or write. -/
theorem C6_assertion (file content nbStr : List Char) (output : Option (List Char))
    (hpy : pyEndsWith (S ".py") file = true)
    (hno : containsSub (S "# Databricks notebook source") content = false) :
    mainDispatch file output content nbStr = MainOutcome.assertionError := by
  unfold mainDispatch
  rw [if_pos hpy, if_neg (by simp [hno])]

/-- C6 (witness): a `.py` file whose content is plain Python. -/
theorem C6_assertion_witness :
    pyEndsWith (S ".py") (S "nb.py") = true
    ∧ containsSub (S "# Databricks notebook source") (S "x = 1\n") = false
    ∧ mainDispatch (S "nb.py") none (S "x = 1\n") [] = MainOutcome.assertionError :=
  ⟨by decide, by decide, C6_assertion (S "nb.py") (S "x = 1\n") [] none (by decide) (by decide)⟩

/-- C7 (counterexample): the output path is computed with
`str.replace(".py", ".ipynb")`, which replaces every occurrence, not just
the extension: for the input path `a.py.py` the code writes to
`a.ipynb.ipynb`, while replacing only the extension would give
`a.py.ipynb`. -/
theorem C7_counterexample :
    outcomePath (mainDispatch (S "a.py.py") none (S "# Databricks notebook source") [])
      = some (S "a.ipynb.ipynb")
    ∧ S "a.ipynb.ipynb" ≠ S "a.py.ipynb" := by
  constructor
  · decide
  · decide

/-- C7 (amended): with no `--output` given, the output path is the input
path with every occurrence of `.py` replaced by `.ipynb` (respectively of
`.ipynb` by `.py`); when the extension is the only such occurrence — for
`.py` paths in which `.py` occurs nowhere else, and `.ipynb` paths in which
`.ipynb` occurs nowhere else — this is exactly the extension swap of the
claim. -/
theorem C7_output_path :
    (∀ q content nbStr : List Char,
      containsSub (S ".py") q = false →
      containsSub (S "# Databricks notebook source") content = true →
      outcomePath (mainDispatch (q ++ S ".py") none content nbStr)
        = some (q ++ S ".ipynb"))
    ∧ (∀ r nbStr : List Char,
      containsSub (S ".ipynb") r = false →
      outcomePath (mainDispatch (r ++ S ".ipynb") none [] nbStr)
        = some (r ++ S ".py")) := by
  constructor
  · intro q content nbStr hq hcontent
    have hpy : pyEndsWith (S ".py") (q ++ S ".py") = true := by
      unfold pyEndsWith
      exact List.isSuffixOf_iff_suffix.mpr (List.suffix_append q _)
    unfold mainDispatch
    rw [if_pos hpy, if_pos hcontent]
    unfold outcomePath
    rw [replaceAll_swap_ext (S ".py") (S ".ipynb") q '.' (S "py") (by decide)
      (by decide) hq]
  · intro r nbStr hr
    have hnpy : pyEndsWith (S ".py") (r ++ S ".ipynb") = false := by
      unfold pyEndsWith
      rw [List.isSuffixOf, List.reverse_append,
        show (S ".py").reverse = ['y', 'p', '.'] from by decide,
        show (S ".ipynb").reverse = ['b', 'n', 'y', 'p', 'i', '.'] from by decide]
      simp [List.isPrefixOf]
    have hipynb : pyEndsWith (S ".ipynb") (r ++ S ".ipynb") = true := by
      unfold pyEndsWith
      exact List.isSuffixOf_iff_suffix.mpr (List.suffix_append r _)
    unfold mainDispatch
    rw [if_neg (by simp [hnpy]), if_pos hipynb]
    unfold outcomePath
    rw [replaceAll_swap_ext (S ".ipynb") (S ".py") r '.' (S "ipynb") (by decide)
      (by decide) hr]

/-- C7 (witness): the amended statement at the concrete paths `nb.py` and
`nb.ipynb`. -/
theorem C7_output_path_witness :
    containsSub (S ".py") (S "nb") = false
    ∧ containsSub (S "# Databricks notebook source") (S "# Databricks notebook source\n") = true
    ∧ outcomePath (mainDispatch (S "nb" ++ S ".py") none (S "# Databricks notebook source\n") [])
        = some (S "nb" ++ S ".ipynb")
    ∧ containsSub (S ".ipynb") (S "nb") = false
    ∧ outcomePath (mainDispatch (S "nb" ++ S ".ipynb") none [] [])
        = some (S "nb" ++ S ".py") :=
  ⟨by decide, by decide,
    C7_output_path.1 (S "nb") (S "# Databricks notebook source\n") [] (by decide) (by decide),
    by decide, C7_output_path.2 (S "nb") [] (by decide)⟩

/-- C8: for every input path ending in neither `.py` nor `.ipynb`, the
dispatch of `main` raises the fatal `ValueError` and writes nothing. -/
theorem C8_value_error (file content nbStr : List Char) (output : Option (List Char))
    (h1 : pyEndsWith (S ".py") file = false)
    (h2 : pyEndsWith (S ".ipynb") file = false) :
    mainDispatch file output content nbStr = MainOutcome.valueError := by
  unfold mainDispatch
  rw [if_neg (by simp [h1]), if_neg (by simp [h2])]

/-- C8 (witness): a `.txt` input path. -/
theorem C8_value_error_witness :
    pyEndsWith (S ".py") (S "notes.txt") = false
    ∧ pyEndsWith (S ".ipynb") (S "notes.txt") = false
    ∧ mainDispatch (S "notes.txt") none [] [] = MainOutcome.valueError :=
  ⟨by decide, by decide, C8_value_error (S "notes.txt") [] [] none (by decide) (by decide)⟩

/-- C9: `parse_dbnotebook` strips the first block's first line, replacing it
with a leading empty line (everything after the block's first newline,
preceded by a blank line), and all later blocks are converted unchanged. -/
theorem C9_first_block (b : List Char) (rest : List (List Char)) :
    parse_dbnotebook (b :: rest)
      = dbChunkCore ('\n' :: firstLineStripped b) ++ (rest.map dbChunkCore).flatten := by
  show dbChunkCore (firstBlockAdjust b) ++ _ = _
  rw [firstBlockAdjust_eq]

/-- C10 (counterexample): `split_script` can return an empty-string block: a
text whose two separator lines surround one blank line yields the block
list `[""]`. -/
theorem C10_counterexample :
    split_script (S "# COMMAND ----------\n\n# COMMAND ----------") = [[]] := by
  decide

/-- C10 (amended): no block returned by `split_script` contains a line that
equals `# COMMAND ----------` after whitespace stripping — separator lines
are always dropped — but a returned block can be the empty string (see the
counterexample). -/
theorem C10_no_separator_lines (s b l : List Char)
    (hb : b ∈ split_script s) (hl : l ∈ splitOnNl b) :
    pyStrip l ≠ sepLine :=
  splitScriptGo_no_sep (splitOnNl s) [] (by simp) (by simp)
    (fun x hx => nlFree_of_mem_splitOnNl s x hx) b hb l hl

/-- C10 (witness): the amended statement at the one-line script `a`. -/
theorem C10_no_separator_lines_witness :
    (S "a" ∈ split_script (S "a"))
    ∧ (S "a" ∈ splitOnNl (S "a"))
    ∧ pyStrip (S "a") ≠ sepLine :=
  ⟨by decide, by decide, C10_no_separator_lines (S "a") (S "a") (S "a") (by decide) (by decide)⟩
